import Mathlib

/-!
Verification development for the `process_consistency` crate: a shallow
embedding of its region enumeration (POSIX and Windows), its periodic
consistency-checking loop (`run_checker`), and proofs about them.

Machine conventions of the embedding:
* addresses (`usize`, `*const u8`) are `Nat`;
* digests (`Hash`) are opaque values only compared for equality, embedded as `Nat`;
* `std::time::Instant` timestamps are `Nat`; `std::time::Duration` is `Nat` nanoseconds;
* fallible Rust code returns `Option`/`Except`; a Rust panic is a dedicated
  constructor of the outcome type;
* OS effects are parameters: the content of `/proc/self/maps` is a list of its
  lines, `std::env::current_exe().ok()` is an `Option String`, `VirtualQuery`
  is a function from an address to `Except Error MEMORY_BASIC_INFORMATION`.
-/

set_option maxHeartbeats 1000000

/-- Embedding of `error::Error` (src/src/error.rs). The `std::io::Error`
payload of `ProcFsUnavailable` is elided (only the path is kept); nothing in
the development inspects it. -/
inductive Error where
  | SysCallError (syscall : String) (code : Int) (message : String)
  | ProcFsUnavailable (path : String)
  | ProcFsFormatError (path : String)
deriving DecidableEq, Repr

/-- Embedding of `Region` (src/src/lib.rs). `start`/`end` are the raw
addresses (`*const u8` as `Nat`); Rust's field `end` is spelled `end'`
because `end` is a Lean keyword. Equality is field-wise, as derived in Rust. -/
structure Region where
  start : Nat
  end' : Nat
  source : String
deriving DecidableEq, Repr

/-- Embedding of `RegionHash` (src/src/lib.rs): the per-region tracked state,
a digest plus the `Instant` at which it was computed. -/
structure RegionHash where
  hash : Nat
  computed_at : Nat
deriving DecidableEq, Repr

/-- Embedding of `MemoryError` (src/src/lib.rs): the change event passed to
the error callback. -/
structure MemoryError where
  region : Region
  old_hash : Nat
  new_hash : Nat
  old_hash_computed_at : Nat
deriving DecidableEq, Repr

/-- Embedding of `CheckerConfig` (src/src/lib.rs). `check_period` is a
duration in nanoseconds. -/
structure CheckerConfig where
  search_once : Bool
  skip_libs : Bool
  check_period : Nat
  include_writable_code : Bool
deriving DecidableEq, Repr

namespace Linux

/-- The constant path the POSIX enumerator opens (src/src/linux/mod.rs). -/
def mapsPath : String := "/proc/self/maps"

/-- Helper for `split_whitespace`: walks the characters, `cur` is the current
token accumulated in reverse. Mirrors Rust's `str::split_whitespace`, which
yields the maximal non-whitespace runs and no empty tokens. -/
def splitWsAux : List Char → List Char → List String
  | [], cur =>
    match cur with
    | [] => []
    | _ => [String.mk cur.reverse]
  | c :: cs, cur =>
    if c.isWhitespace then
      match cur with
      | [] => splitWsAux cs []
      | _ => String.mk cur.reverse :: splitWsAux cs []
    else
      splitWsAux cs (c :: cur)

/-- Embedding of `line.split_whitespace().collect::<Vec<_>>()`. -/
def split_whitespace (s : String) : List String :=
  splitWsAux s.data []

/-- Character-list core of `str::starts_with`. -/
def startsWithChars : List Char → List Char → Bool
  | _, [] => true
  | [], _ :: _ => false
  | c :: cs, d :: ds => c = d && startsWithChars cs ds

/-- Embedding of `str::starts_with` for string patterns. -/
def str_starts_with (s pri : String) : Bool :=
  startsWithChars s.data pri.data

/-- Character-list core of `str::split_once`: split at the first occurrence
of `d`, excluding it; `none` when `d` does not occur. -/
def splitOnceChars : List Char → Char → Option (List Char × List Char)
  | [], _ => none
  | c :: cs, d =>
    if c = d then some ([], cs)
    else
      match splitOnceChars cs d with
      | none => none
      | some (a, b) => some (c :: a, b)

/-- Embedding of `str::split_once`. -/
def split_once (s : String) (d : Char) : Option (String × String) :=
  match splitOnceChars s.data d with
  | none => none
  | some (a, b) => some (String.mk a, String.mk b)

/-- Value of one hexadecimal digit, as accepted by `usize::from_str_radix(_, 16)`. -/
def hexDigitVal (c : Char) : Option Nat :=
  if '0' ≤ c ∧ c ≤ '9' then some (c.toNat - '0'.toNat)
  else if 'a' ≤ c ∧ c ≤ 'f' then some (c.toNat - 'a'.toNat + 10)
  else if 'A' ≤ c ∧ c ≤ 'F' then some (c.toNat - 'A'.toNat + 10)
  else none

/-- `usize::MAX` on the 64-bit targets the crate supports. -/
def USIZE_MAX : Nat := 2 ^ 64 - 1

/-- Embedding of `usize::from_str_radix(s, 16)`: an optional leading `+`,
then at least one hex digit, rejecting overflow past `usize::MAX`;
`none` is Rust's `Err`. -/
def from_str_radix16 (s : String) : Option Nat :=
  let cs :=
    match s.data with
    | '+' :: rest => rest
    | cs => cs
  if cs = [] then none
  else
    cs.foldl
      (fun acc c =>
        match acc, hexDigitVal c with
        | some a, some d => if a * 16 + d ≤ USIZE_MAX then some (a * 16 + d) else none
        | _, _ => none)
      (some 0)

/-- Result of handling one line of the maps file inside the `for` loop of
`get_executable_regions` (src/src/linux/mod.rs): the iteration can panic
(`segments[1]` on a line with fewer than two fields), abort the whole call
with an error, `continue`, or push a region. -/
inductive LineStep where
  | panicked
  | err (e : Error)
  | skip
  | reg (r : Region)
deriving DecidableEq, Repr

/-- Per-line selection and parsing of `get_executable_regions`
(src/src/linux/mod.rs lines 31-55), before the `skip_libs` filter:
split the line on whitespace; index `segments[1]` (panicking when absent, as
the Rust slice index does); keep only permissions starting `r-x`, or `rwx`
when `include_writable_code`; split the address range at `-`; parse both
halves as hex `usize`; take `segments[5]` as the source path, a missing one
being a `ProcFsFormatError`. -/
def selectMapsLine (include_writable_code : Bool) (line : String) : LineStep :=
  match split_whitespace line with
  | s0 :: s1 :: rest =>
    if !str_starts_with s1 "r-x" && !(include_writable_code && str_starts_with s1 "rwx") then
      .skip
    else
      match split_once s0 '-' with
      | none => .err (.ProcFsFormatError mapsPath)
      | some (a, b) =>
        match from_str_radix16 a with
        | none => .err (.ProcFsFormatError mapsPath)
        | some start =>
          match from_str_radix16 b with
          | none => .err (.ProcFsFormatError mapsPath)
          | some stop =>
            match rest.get? 3 with
            | none => .err (.ProcFsFormatError mapsPath)
            | some source => .reg ⟨start, stop, source⟩
  | _ => .panicked

/-- One full loop body of `get_executable_regions` (src/src/linux/mod.rs):
`selectMapsLine` followed by the `skip_libs` filter `if let Some(filter_path)
= &filter { if Path::new(&source) != filter_path { continue; } }`. Path
comparison is embedded as string equality. -/
def processMapsLine (include_writable_code : Bool) (filter : Option String) (line : String) :
    LineStep :=
  match selectMapsLine include_writable_code line with
  | .reg r =>
    match filter with
    | some filter_path => if r.source ≠ filter_path then .skip else .reg r
    | none => .reg r
  | s => s

/-- Outcome of the whole POSIX enumeration over the given file content:
a panic, an `Err`, or `Ok` with the pushed regions. -/
inductive Outcome where
  | panicked
  | err (e : Error)
  | ok (rs : List Region)
deriving DecidableEq, Repr

/-- The `for line in BufReader::new(file).lines()` loop of
`get_executable_regions`, abstracted over the per-line step: the first panic
or error aborts the whole call (no partial results); `reg` pushes. -/
def runLines (step : String → LineStep) : List String → Outcome
  | [] => .ok []
  | l :: ls =>
    match step l with
    | .panicked => .panicked
    | .err e => .err e
    | .skip => runLines step ls
    | .reg r =>
      match runLines step ls with
      | .ok rs => .ok (r :: rs)
      | out => out

/-- Embedding of `linux::get_executable_regions` (src/src/linux/mod.rs).
The successfully read lines of `/proc/self/maps` and the result of
`std::env::current_exe().ok()` are parameters (they are OS effects); the
`File::open`/read `ProcFsUnavailable` path is therefore not exercised here. -/
def get_executable_regions (skip_libs include_writable_code : Bool)
    (current_exe : Option String) (maps_lines : List String) : Outcome :=
  let filter := if skip_libs then current_exe else none
  runLines (processMapsLine include_writable_code filter) maps_lines

end Linux

namespace Windows

/-- Embedding of the fields of `MEMORY_BASIC_INFORMATION` that
`Module::get_executable_regions` reads (src/src/windows/mod.rs):
`BaseAddress`, `RegionSize` and the `Protect` flags value. -/
structure MEMORY_BASIC_INFORMATION where
  BaseAddress : Nat
  RegionSize : Nat
  Protect : Nat
deriving DecidableEq, Repr

/-- `PAGE_EXECUTE_READ` of the Windows API. -/
def PAGE_EXECUTE_READ : Nat := 0x20

/-- `PAGE_EXECUTE_READWRITE` of the Windows API. -/
def PAGE_EXECUTE_READWRITE : Nat := 0x40

/-- `PAGE_EXECUTE_WRITECOPY` of the Windows API. -/
def PAGE_EXECUTE_WRITECOPY : Nat := 0x80

/-- The emission condition of `Module::get_executable_regions`
(src/src/windows/mod.rs lines 140-144), verbatim:
`info.Protect | PAGE_EXECUTE_READ == PAGE_EXECUTE_READ
 || info.Protect | PAGE_EXECUTE_WRITECOPY == PAGE_EXECUTE_WRITECOPY
 || (info.Protect | PAGE_EXECUTE_READWRITE == PAGE_EXECUTE_READWRITE
     && include_writable_code)`. -/
def winEmit (protect : Nat) (include_writable_code : Bool) : Bool :=
  ((protect ||| PAGE_EXECUTE_READ) == PAGE_EXECUTE_READ)
    || ((protect ||| PAGE_EXECUTE_WRITECOPY) == PAGE_EXECUTE_WRITECOPY)
    || (((protect ||| PAGE_EXECUTE_READWRITE) == PAGE_EXECUTE_READWRITE)
        && include_writable_code)

/-- Modelled from the spec: the protections whose emission §4.1 names —
"execute-read, execute-read-with-copy-on-write, or — when
`include_writable_code` — execute-read-write" — read as the corresponding
protection values. Named definition for the refinement comparison with the
source's `winEmit`. -/
def protectionIndicatedBySpec (protect : Nat) (include_writable_code : Bool) : Bool :=
  (protect == PAGE_EXECUTE_READ)
    || (protect == PAGE_EXECUTE_WRITECOPY)
    || ((protect == PAGE_EXECUTE_READWRITE) && include_writable_code)

/-- Embedding of `Module` (src/src/windows/mod.rs). -/
structure Module where
  module_id : Nat
  process_id : Nat
  base_addr : Nat
  base_size : Nat
  module_name : String
  exe_path : String
deriving DecidableEq, Repr

/-- The `loop` of `Module::get_executable_regions` (src/src/windows/mod.rs
lines 126-155). `query` embeds `VirtualQuery` (its `Except.error` value is
what `win_get_last_error("VirtualQuery")` would build). The loop has no
termination guarantee in the source (a query that makes no forward progress
loops forever), so it is fuel-indexed: `none` means the fuel ran out. -/
def moduleWalk (include_writable_code : Bool)
    (query : Nat → Except Error MEMORY_BASIC_INFORMATION)
    (exe_path : String) (module_end : Nat) :
    Nat → Nat → Option (Except Error (List Region))
  | 0, _ => none
  | fuel + 1, pos =>
    match query pos with
    | .error e => some (.error e)
    | .ok info =>
      let segment_end := min (info.BaseAddress + info.RegionSize) module_end
      let emitted : List Region :=
        if winEmit info.Protect include_writable_code then
          [⟨pos, segment_end, exe_path⟩]
        else []
      if module_end ≤ segment_end then some (.ok emitted)
      else
        match moduleWalk include_writable_code query exe_path module_end fuel segment_end with
        | some (.ok rest) => some (.ok (emitted ++ rest))
        | out => out

/-- Embedding of `Module::get_executable_regions` (src/src/windows/mod.rs):
walk the module's address span `[base_addr, base_addr + base_size)` with
`moduleWalk`, starting at the base. -/
def Module.get_executable_regions (m : Module) (include_writable_code : Bool)
    (query : Nat → Except Error MEMORY_BASIC_INFORMATION) (fuel : Nat) :
    Option (Except Error (List Region)) :=
  moduleWalk include_writable_code query m.exe_path (m.base_addr + m.base_size) fuel m.base_addr

/-- Observer for the walk: the sequence of `(pos, info)` pairs the loop's
`VirtualQuery` calls visit, on the same traversal as `moduleWalk`; `none`
when the fuel runs out or a query fails. -/
def moduleWalkVisited (query : Nat → Except Error MEMORY_BASIC_INFORMATION)
    (module_end : Nat) : Nat → Nat → Option (List (Nat × MEMORY_BASIC_INFORMATION))
  | 0, _ => none
  | fuel + 1, pos =>
    match query pos with
    | .error _ => none
    | .ok info =>
      let segment_end := min (info.BaseAddress + info.RegionSize) module_end
      if module_end ≤ segment_end then some [(pos, info)]
      else
        match moduleWalkVisited query module_end fuel segment_end with
        | some vs => some ((pos, info) :: vs)
        | none => none

/-- The regions a visit list gives rise to: one region per visited segment
whose protection passes the source's emission condition. -/
def regionsOfVisited (include_writable_code : Bool) (exe_path : String) (module_end : Nat)
    (vs : List (Nat × MEMORY_BASIC_INFORMATION)) : List Region :=
  (vs.filter (fun v => winEmit v.2.Protect include_writable_code)).map
    (fun v => ⟨v.1, min (v.2.BaseAddress + v.2.RegionSize) module_end, exe_path⟩)

end Windows

/-- Embedding of `Sub` for `std::time::Duration` (nanosecond granularity):
Rust's `Duration - Duration` panics ("overflow when subtracting durations")
when the subtrahend exceeds the minuend; `none` models that panic. -/
def durationSub (a b : Nat) : Option Nat :=
  if b ≤ a then some (a - b) else none

/-- The end-of-iteration computation of `run_checker` (src/src/lib.rs line
309): `let sleep_duration = config.check_period - now.elapsed();`. -/
def sleepDurationOf (check_period elapsed : Nat) : Option Nat :=
  durationSub check_period elapsed

/-- The tracked-state map `region_hashes : HashMap<Region, RegionHash>` of
`run_checker`, embedded as an association list; the `HashMap` invariant that
keys are unique is carried as a `(keys m).Nodup` hypothesis where needed. -/
abbrev RegionMap := List (Region × RegionHash)

/-- The key set of the tracked-state map. -/
def keys (m : RegionMap) : List Region := m.map Prod.fst

/-- Embedding of `region_hashes.get_mut(&region)` as a pure lookup of the
first entry with the given key. -/
def lookupRegion : RegionMap → Region → Option RegionHash
  | [], _ => none
  | e :: m, r => if e.1 = r then some e.2 else lookupRegion m r

/-- Replacing the value stored at a key (the effect of writing through
`get_mut`'s reference): the first entry with that key is replaced. -/
def updateRegion : RegionMap → Region → RegionHash → RegionMap
  | [], _, _ => []
  | e :: m, r, v => if e.1 = r then (e.1, v) :: m else e :: updateRegion m r v

/-- One body of the `for region in regions` loop of `run_checker`
(src/src/lib.rs lines 274-303), threading the map and the list of callback
invocations: compute the hash; if the region is tracked, append a
`MemoryError` to the emitted events when the hash changed (carrying the old
hash and old timestamp, read before the entry is overwritten) and update the
entry to the current hash and `now`; if untracked, insert a fresh entry and
emit nothing. -/
def processRegion (hashOf : Region → Nat) (now : Nat)
    (st : RegionMap × List MemoryError) (region : Region) : RegionMap × List MemoryError :=
  let hash := hashOf region
  match lookupRegion st.1 region with
  | some entry =>
    let evs :=
      if entry.hash ≠ hash then
        st.2 ++ [⟨region, entry.hash, hash, entry.computed_at⟩]
      else st.2
    (updateRegion st.1 region ⟨hash, now⟩, evs)
  | none => (st.1 ++ [(region, ⟨hash, now⟩)], st.2)

/-- Embedding of `region_hashes.retain(|_k, v| v.computed_at == now)`
(src/src/lib.rs line 306). -/
def pruneRegions (now : Nat) (m : RegionMap) : RegionMap :=
  m.filter (fun e => e.2.computed_at == now)

/-- The candidate-set decision of `run_checker` (src/src/lib.rs line 268):
the region enumerator is called exactly when
`!config.search_once || region_hashes.is_empty()`. -/
def usesEnumerator (config : CheckerConfig) (m : RegionMap) : Bool :=
  !config.search_once || m.isEmpty

/-- The candidate region list of one iteration (src/src/lib.rs lines
268-272): the enumerator's result when `usesEnumerator`, otherwise
`region_hashes.keys().cloned().collect()`. -/
def candidateRegions (config : CheckerConfig) (enumerated : List Region) (m : RegionMap) :
    List Region :=
  if usesEnumerator config m then enumerated else keys m

/-- One iteration of the `loop` in `run_checker` (src/src/lib.rs lines
266-311), as a pure function of the iteration's wall clock `now`, the
memory contents (as the hash function `hashOf` the unsafe `compute_hash`
realizes this iteration), and the enumerator's successfully returned list:
choose candidates, fold the per-region diff step over them, prune, and
return the new map together with the callback invocations in order. -/
def checkerIteration (config : CheckerConfig) (hashOf : Region → Nat) (now : Nat)
    (enumerated : List Region) (m : RegionMap) : RegionMap × List MemoryError :=
  let regions := candidateRegions config enumerated m
  let st := List.foldl (processRegion hashOf now) (m, []) regions
  (pruneRegions now st.1, st.2)

/-- The per-iteration environment of the loop: the memory contents (hash
function), the iteration's `Instant::now()`, and what the enumerator would
return if called. -/
structure IterInput where
  hashOf : Region → Nat
  now : Nat
  enumerated : List Region

/-- Several iterations of `run_checker`'s loop, returning the final map and,
for each iteration in order, whether it called the region enumerator. -/
def checkerRun (config : CheckerConfig) : RegionMap → List IterInput → RegionMap × List Bool
  | m, [] => (m, [])
  | m, it :: its =>
    let step := checkerIteration config it.hashOf it.now it.enumerated m
    let rest := checkerRun config step.1 its
    (rest.1, usesEnumerator config m :: rest.2)

/-- The callback invocations whose event is about region `r`. -/
def eventsFor (r : Region) (evs : List MemoryError) : List MemoryError :=
  evs.filter (fun ev => ev.region == r)

/-- Concrete region used by witnesses: the main executable's text segment. -/
def rA : Region := ⟨0, 4096, "/bin/app"⟩

/-- Concrete constant hash function used by witnesses. -/
def hash7 : Region → Nat := fun _ => 7

/-- Concrete default-like configuration (1s period, everything false). -/
def cfgPlain : CheckerConfig := ⟨false, false, 1000000000, false⟩

/-- Concrete configuration with `search_once` set. -/
def cfgOnce : CheckerConfig := ⟨true, false, 1000000000, false⟩

/-- Concrete tracked map holding `rA` with hash 1 observed at time 0. -/
def mA : RegionMap := [(rA, ⟨1, 0⟩)]

/-- Concrete maps-file content with one executable mapping of the binary and
one of a library. -/
def linesAB : List String :=
  ["0-1 r-xp 0 0 0 /bin/app", "2-3 r-xp 0 0 0 /lib/libc"]

/-- Concrete maps-file content whose only executable mapping is
writable-executable. -/
def linesRwx : List String := ["0-1 rwxp 0 0 0 /bin/app"]

/-- Concrete module for Windows witnesses. -/
def modW : Windows.Module := ⟨0, 0, 4096, 4096, "m", "m"⟩

/-- Concrete query answering every address with one reserved segment
(`Protect = 0`, as `VirtualQuery` reports for reserved pages) covering the
whole module. -/
def queryZero : Nat → Except Error Windows.MEMORY_BASIC_INFORMATION :=
  fun _ => .ok ⟨4096, 4096, 0⟩

/-- Concrete query answering every address with one execute-read-write
segment covering the whole module. -/
def queryRW : Nat → Except Error Windows.MEMORY_BASIC_INFORMATION :=
  fun _ => .ok ⟨4096, 4096, 0x40⟩

/-! ### Association-list lemmas for the tracked-state map -/

theorem keys_nil : keys ([] : RegionMap) = [] := rfl

theorem keys_cons {e : Region × RegionHash} {m : RegionMap} :
    keys (e :: m) = e.1 :: keys m := rfl

theorem keys_append {m₁ m₂ : RegionMap} : keys (m₁ ++ m₂) = keys m₁ ++ keys m₂ :=
  List.map_append _ _ _

theorem lookup_some_mem_keys {m : RegionMap} {r : Region} {v : RegionHash}
    (h : lookupRegion m r = some v) : r ∈ keys m := by
  induction m with
  | nil => simp [lookupRegion] at h
  | cons e m ih =>
    rw [lookupRegion] at h
    by_cases he : e.1 = r
    · rw [keys_cons, he]
      exact List.mem_cons_self _ _
    · rw [if_neg he] at h
      rw [keys_cons]
      exact List.mem_cons_of_mem _ (ih h)

theorem lookup_none_iff {m : RegionMap} {r : Region} :
    lookupRegion m r = none ↔ r ∉ keys m := by
  induction m with
  | nil => simp [lookupRegion, keys_nil]
  | cons e m ih =>
    rw [lookupRegion, keys_cons]
    by_cases he : e.1 = r
    · simp [he]
    · rw [if_neg he, ih]
      constructor
      · intro h hmem
        rcases List.mem_cons.mp hmem with h1 | h1
        · exact he h1.symm
        · exact h h1
      · intro h hmem
        exact h (List.mem_cons_of_mem _ hmem)

theorem lookup_update_self {m : RegionMap} {r : Region} {v : RegionHash}
    (h : r ∈ keys m) : lookupRegion (updateRegion m r v) r = some v := by
  induction m with
  | nil => simp [keys_nil] at h
  | cons e m ih =>
    rw [updateRegion]
    by_cases he : e.1 = r
    · rw [if_pos he, lookupRegion, if_pos he]
    · rw [if_neg he, lookupRegion, if_neg he]
      apply ih
      rw [keys_cons] at h
      rcases List.mem_cons.mp h with h | h
      · exact absurd h.symm he
      · exact h

theorem lookup_update_ne {m : RegionMap} {c : Region} {v : RegionHash} {r : Region}
    (h : r ≠ c) : lookupRegion (updateRegion m c v) r = lookupRegion m r := by
  induction m with
  | nil => simp [updateRegion]
  | cons e m ih =>
    rw [updateRegion]
    by_cases he : e.1 = c
    · have hne : ¬ e.1 = r := by rw [he]; exact fun hh => h hh.symm
      rw [if_pos he, lookupRegion, lookupRegion, if_neg hne, if_neg hne]
    · rw [if_neg he, lookupRegion, lookupRegion]
      by_cases her : e.1 = r
      · rw [if_pos her, if_pos her]
      · rw [if_neg her, if_neg her, ih]

theorem keys_update {m : RegionMap} {c : Region} {v : RegionHash} :
    keys (updateRegion m c v) = keys m := by
  induction m with
  | nil => simp [updateRegion]
  | cons e m ih =>
    rw [updateRegion]
    by_cases he : e.1 = c
    · rw [if_pos he, keys_cons, keys_cons]
    · rw [if_neg he, keys_cons, keys_cons, ih]

theorem lookup_append_single_ne {m : RegionMap} {c : Region} {v : RegionHash} {r : Region}
    (h : r ≠ c) : lookupRegion (m ++ [(c, v)]) r = lookupRegion m r := by
  induction m with
  | nil =>
    have hne : ¬ c = r := fun hh => h hh.symm
    simp [lookupRegion, hne]
  | cons e m ih =>
    rw [List.cons_append, lookupRegion, lookupRegion]
    by_cases he : e.1 = r
    · rw [if_pos he, if_pos he]
    · rw [if_neg he, if_neg he, ih]

theorem lookup_append_single_self {m : RegionMap} {c : Region} {v : RegionHash}
    (h : lookupRegion m c = none) : lookupRegion (m ++ [(c, v)]) c = some v := by
  induction m with
  | nil => simp [lookupRegion]
  | cons e m ih =>
    rw [lookupRegion] at h
    by_cases he : e.1 = c
    · rw [if_pos he] at h
      exact absurd h (by simp)
    · rw [if_neg he] at h
      rw [List.cons_append, lookupRegion, if_neg he]
      exact ih h

theorem lookup_append_mid {m₁ : RegionMap} {e : Region × RegionHash} {m₂ : RegionMap}
    (h : e.1 ∉ keys m₁) : lookupRegion (m₁ ++ e :: m₂) e.1 = some e.2 := by
  induction m₁ with
  | nil => simp [lookupRegion]
  | cons f m₁ ih =>
    rw [List.cons_append, lookupRegion]
    have hf : ¬ f.1 = e.1 := by
      intro hh
      exact h (by rw [keys_cons, hh]; exact List.mem_cons_self _ _)
    rw [if_neg hf]
    exact ih (fun hh => h (by rw [keys_cons]; exact List.mem_cons_of_mem _ hh))

theorem update_append_mid {m₁ : RegionMap} {e : Region × RegionHash} {m₂ : RegionMap}
    {v : RegionHash} (h : e.1 ∉ keys m₁) :
    updateRegion (m₁ ++ e :: m₂) e.1 v = m₁ ++ (e.1, v) :: m₂ := by
  induction m₁ with
  | nil => simp [updateRegion]
  | cons f m₁ ih =>
    rw [List.cons_append, updateRegion]
    have hf : ¬ f.1 = e.1 := by
      intro hh
      exact h (by rw [keys_cons, hh]; exact List.mem_cons_self _ _)
    rw [if_neg hf, List.cons_append,
      ih (fun hh => h (by rw [keys_cons]; exact List.mem_cons_of_mem _ hh))]

theorem mem_update {m : RegionMap} {c : Region} {v : RegionHash} {e : Region × RegionHash}
    (h : e ∈ updateRegion m c v) : e ∈ m ∨ e = (c, v) := by
  induction m with
  | nil => simp [updateRegion] at h
  | cons f m ih =>
    rw [updateRegion] at h
    by_cases hf : f.1 = c
    · rw [if_pos hf] at h
      rcases List.mem_cons.mp h with h | h
      · exact Or.inr (by rw [h, hf])
      · exact Or.inl (List.mem_cons_of_mem f h)
    · rw [if_neg hf] at h
      rcases List.mem_cons.mp h with h | h
      · exact Or.inl (by rw [h]; exact List.mem_cons_self _ _)
      · rcases ih h with h | h
        · exact Or.inl (List.mem_cons_of_mem f h)
        · exact Or.inr h

theorem lookup_prune {m : RegionMap} {r : Region} {v : RegionHash} {now : Nat}
    (hlk : lookupRegion m r = some v) (hc : v.computed_at = now) :
    lookupRegion (pruneRegions now m) r = some v := by
  induction m with
  | nil => simp [lookupRegion] at hlk
  | cons e m ih =>
    rw [lookupRegion] at hlk
    by_cases he : e.1 = r
    · rw [if_pos he] at hlk
      have hv : e.2 = v := by injection hlk
      rw [pruneRegions, List.filter_cons]
      have hkeep : (e.2.computed_at == now) = true := by simp [hv, hc]
      rw [if_pos (by simp [hkeep]), lookupRegion, if_pos he, hv]
    · rw [if_neg he] at hlk
      rw [pruneRegions, List.filter_cons]
      by_cases hs : (e.2.computed_at == now) = true
      · rw [if_pos (by simp [hs]), lookupRegion, if_neg he]
        exact ih hlk
      · rw [if_neg (by simp [Bool.not_eq_true] at hs ⊢; simp [hs])]
        exact ih hlk

/-! ### Shape of one `processRegion` step and `eventsFor` -/

theorem processRegion_eq_some {hashOf : Region → Nat} {now : Nat} {m : RegionMap}
    {evs : List MemoryError} {c : Region} {entry : RegionHash}
    (hlk : lookupRegion m c = some entry) :
    processRegion hashOf now (m, evs) c =
      (updateRegion m c ⟨hashOf c, now⟩,
       if entry.hash ≠ hashOf c then
         evs ++ [⟨c, entry.hash, hashOf c, entry.computed_at⟩]
       else evs) := by
  simp only [processRegion]
  rw [hlk]

theorem processRegion_eq_none {hashOf : Region → Nat} {now : Nat} {m : RegionMap}
    {evs : List MemoryError} {c : Region}
    (hlk : lookupRegion m c = none) :
    processRegion hashOf now (m, evs) c = (m ++ [(c, ⟨hashOf c, now⟩)], evs) := by
  simp only [processRegion]
  rw [hlk]

theorem eventsFor_nil {r : Region} : eventsFor r [] = [] := rfl

theorem eventsFor_append {r : Region} {evs₁ evs₂ : List MemoryError} :
    eventsFor r (evs₁ ++ evs₂) = eventsFor r evs₁ ++ eventsFor r evs₂ :=
  List.filter_append _ _

theorem eventsFor_single_ne {r : Region} {ev : MemoryError} (h : ev.region ≠ r) :
    eventsFor r [ev] = [] := by
  simp [eventsFor, h]

theorem eventsFor_single_self {r : Region} {ev : MemoryError} (h : ev.region = r) :
    eventsFor r [ev] = [ev] := by
  simp [eventsFor, h]

/-! ### Lemmas about the per-iteration fold of `run_checker` -/

theorem fold_untouched (hashOf : Region → Nat) (now : Nat) (r : Region) :
    ∀ (cs : List Region) (m : RegionMap) (evs : List MemoryError), r ∉ cs →
      lookupRegion (List.foldl (processRegion hashOf now) (m, evs) cs).1 r = lookupRegion m r ∧
      eventsFor r (List.foldl (processRegion hashOf now) (m, evs) cs).2 = eventsFor r evs := by
  intro cs
  induction cs with
  | nil => intro m evs _; exact ⟨rfl, rfl⟩
  | cons c cs ih =>
    intro m evs hr
    have hrc : r ≠ c := fun h => hr (h ▸ List.mem_cons_self c cs)
    have hrcs : r ∉ cs := fun h => hr (List.mem_cons_of_mem c h)
    rw [List.foldl_cons]
    cases hlk : lookupRegion m c with
    | some entry =>
      rw [processRegion_eq_some hlk]
      rcases ih (updateRegion m c ⟨hashOf c, now⟩)
        (if entry.hash ≠ hashOf c then
          evs ++ [⟨c, entry.hash, hashOf c, entry.computed_at⟩] else evs) hrcs with ⟨h1, h2⟩
      refine ⟨h1.trans (lookup_update_ne hrc), h2.trans ?_⟩
      by_cases hne : entry.hash ≠ hashOf c
      · rw [if_pos hne, eventsFor_append, eventsFor_single_ne (fun h => hrc h.symm),
          List.append_nil]
      · rw [if_neg hne]
    | none =>
      rw [processRegion_eq_none hlk]
      rcases ih (m ++ [(c, ⟨hashOf c, now⟩)]) evs hrcs with ⟨h1, h2⟩
      exact ⟨h1.trans (lookup_append_single_ne hrc), h2⟩

theorem fold_lookup_processed (hashOf : Region → Nat) (now : Nat) (r : Region) :
    ∀ (cs : List Region), cs.Nodup → r ∈ cs → ∀ (m : RegionMap) (evs : List MemoryError),
      lookupRegion (List.foldl (processRegion hashOf now) (m, evs) cs).1 r =
        some ⟨hashOf r, now⟩ := by
  intro cs
  induction cs with
  | nil => intro _ hr; exact absurd hr (List.not_mem_nil r)
  | cons c cs ih =>
    intro hnd hr m evs
    rcases List.nodup_cons.mp hnd with ⟨hcn, hnd'⟩
    rw [List.foldl_cons]
    by_cases hrc : r = c
    · subst hrc
      cases hlk : lookupRegion m r with
      | some entry =>
        rw [processRegion_eq_some hlk]
        refine ((fold_untouched hashOf now r cs _ _ hcn).1).trans ?_
        exact lookup_update_self (lookup_some_mem_keys hlk)
      | none =>
        rw [processRegion_eq_none hlk]
        refine ((fold_untouched hashOf now r cs _ _ hcn).1).trans ?_
        exact lookup_append_single_self hlk
    · have hr' : r ∈ cs := by
        rcases List.mem_cons.mp hr with h | h
        · exact absurd h hrc
        · exact h
      cases hlk : lookupRegion m c with
      | some entry =>
        rw [processRegion_eq_some hlk]
        exact ih hnd' hr' _ _
      | none =>
        rw [processRegion_eq_none hlk]
        exact ih hnd' hr' _ _

theorem fold_events_present (hashOf : Region → Nat) (now : Nat) (r : Region)
    (entry : RegionHash) :
    ∀ (cs : List Region), cs.Nodup → r ∈ cs → ∀ (m : RegionMap) (evs : List MemoryError),
      lookupRegion m r = some entry →
      eventsFor r (List.foldl (processRegion hashOf now) (m, evs) cs).2 =
        eventsFor r evs ++
          (if entry.hash ≠ hashOf r then
            [⟨r, entry.hash, hashOf r, entry.computed_at⟩] else []) := by
  intro cs
  induction cs with
  | nil => intro _ hr; exact absurd hr (List.not_mem_nil r)
  | cons c cs ih =>
    intro hnd hr m evs hlk
    rcases List.nodup_cons.mp hnd with ⟨hcn, hnd'⟩
    rw [List.foldl_cons]
    by_cases hrc : r = c
    · subst hrc
      rw [processRegion_eq_some hlk]
      refine ((fold_untouched hashOf now r cs _ _ hcn).2).trans ?_
      by_cases hne : entry.hash ≠ hashOf r
      · rw [if_pos hne, if_pos hne, eventsFor_append]
        congr 1
        simp [eventsFor]
      · rw [if_neg hne, if_neg hne, List.append_nil]
    · have hr' : r ∈ cs := by
        rcases List.mem_cons.mp hr with h | h
        · exact absurd h hrc
        · exact h
      cases hlkc : lookupRegion m c with
      | some entryc =>
        rw [processRegion_eq_some hlkc]
        have hlk' : lookupRegion (updateRegion m c ⟨hashOf c, now⟩) r = some entry :=
          (lookup_update_ne hrc).trans hlk
        rw [ih hnd' hr' _ _ hlk']
        by_cases hne : entryc.hash ≠ hashOf c
        · rw [if_pos hne, eventsFor_append, eventsFor_single_ne (fun h => hrc h.symm),
            List.append_nil]
        · rw [if_neg hne]
      | none =>
        rw [processRegion_eq_none hlkc]
        have hlk' : lookupRegion (m ++ [(c, ⟨hashOf c, now⟩)]) r = some entry :=
          (lookup_append_single_ne hrc).trans hlk
        rw [ih hnd' hr' _ _ hlk']

theorem fold_events_absent (hashOf : Region → Nat) (now : Nat) (r : Region) :
    ∀ (cs : List Region), cs.Nodup → r ∈ cs → ∀ (m : RegionMap) (evs : List MemoryError),
      lookupRegion m r = none →
      eventsFor r (List.foldl (processRegion hashOf now) (m, evs) cs).2 = eventsFor r evs := by
  intro cs
  induction cs with
  | nil => intro _ hr; exact absurd hr (List.not_mem_nil r)
  | cons c cs ih =>
    intro hnd hr m evs hlk
    rcases List.nodup_cons.mp hnd with ⟨hcn, hnd'⟩
    rw [List.foldl_cons]
    by_cases hrc : r = c
    · subst hrc
      rw [processRegion_eq_none hlk]
      exact (fold_untouched hashOf now r cs _ _ hcn).2
    · have hr' : r ∈ cs := by
        rcases List.mem_cons.mp hr with h | h
        · exact absurd h hrc
        · exact h
      cases hlkc : lookupRegion m c with
      | some entryc =>
        rw [processRegion_eq_some hlkc]
        have hlk' : lookupRegion (updateRegion m c ⟨hashOf c, now⟩) r = none :=
          (lookup_update_ne hrc).trans hlk
        rw [ih hnd' hr' _ _ hlk']
        by_cases hne : entryc.hash ≠ hashOf c
        · rw [if_pos hne, eventsFor_append, eventsFor_single_ne (fun h => hrc h.symm),
            List.append_nil]
        · rw [if_neg hne]
      | none =>
        rw [processRegion_eq_none hlkc]
        have hlk' : lookupRegion (m ++ [(c, ⟨hashOf c, now⟩)]) r = none :=
          (lookup_append_single_ne hrc).trans hlk
        rw [ih hnd' hr' _ _ hlk']

theorem fold_event_regions (hashOf : Region → Nat) (now : Nat) :
    ∀ (cs : List Region) (m : RegionMap) (evs : List MemoryError)
      (ev : MemoryError), ev ∈ (List.foldl (processRegion hashOf now) (m, evs) cs).2 →
      ev ∈ evs ∨ ev.region ∈ cs := by
  intro cs
  induction cs with
  | nil => intro m evs ev h; exact Or.inl h
  | cons c cs ih =>
    intro m evs ev h
    rw [List.foldl_cons] at h
    cases hlk : lookupRegion m c with
    | some entry =>
      rw [processRegion_eq_some hlk] at h
      rcases ih _ _ ev h with h1 | h1
      · by_cases hne : entry.hash ≠ hashOf c
        · rw [if_pos hne] at h1
          rcases List.mem_append.mp h1 with h2 | h2
          · exact Or.inl h2
          · rcases List.mem_singleton.mp h2 with rfl
            exact Or.inr (List.mem_cons_self c cs)
        · rw [if_neg hne] at h1
          exact Or.inl h1
      · exact Or.inr (List.mem_cons_of_mem c h1)
    | none =>
      rw [processRegion_eq_none hlk] at h
      rcases ih _ _ ev h with h1 | h1
      · exact Or.inl h1
      · exact Or.inr (List.mem_cons_of_mem c h1)

theorem fold_stale_mem (hashOf : Region → Nat) (now : Nat) :
    ∀ (cs : List Region) (m : RegionMap) (evs : List MemoryError)
      (e : Region × RegionHash),
      e ∈ (List.foldl (processRegion hashOf now) (m, evs) cs).1 → e.1 ∉ cs → e ∈ m := by
  intro cs
  induction cs with
  | nil => intro m evs e h _; exact h
  | cons c cs ih =>
    intro m evs e h hout
    have hec : e.1 ≠ c := fun hh => hout (hh ▸ List.mem_cons_self c cs)
    have hecs : e.1 ∉ cs := fun hh => hout (List.mem_cons_of_mem c hh)
    rw [List.foldl_cons] at h
    cases hlk : lookupRegion m c with
    | some entry =>
      rw [processRegion_eq_some hlk] at h
      have h1 := ih _ _ e h hecs
      rcases mem_update h1 with h2 | h2
      · exact h2
      · exact absurd (by rw [h2]) hec
    | none =>
      rw [processRegion_eq_none hlk] at h
      have h1 := ih _ _ e h hecs
      rcases List.mem_append.mp h1 with h2 | h2
      · exact h2
      · rcases List.mem_singleton.mp h2 with rfl
        exact absurd rfl hec

theorem fold_refresh (hashOf : Region → Nat) (now : Nat) :
    ∀ (m₂ m₁ : RegionMap) (evs : List MemoryError),
      (keys (m₁ ++ m₂)).Nodup →
      (List.foldl (processRegion hashOf now) (m₁ ++ m₂, evs) (keys m₂)).1 =
        m₁ ++ m₂.map (fun e => (e.1, ⟨hashOf e.1, now⟩)) := by
  intro m₂
  induction m₂ with
  | nil =>
    intro m₁ evs _
    simp [keys_nil]
  | cons e m₂ ih =>
    intro m₁ evs hnd
    have he1 : e.1 ∉ keys m₁ := by
      rw [keys_append, keys_cons] at hnd
      rcases List.nodup_append.mp hnd with ⟨_, _, hdisj⟩
      exact fun hmem => hdisj hmem (List.mem_cons_self _ _)
    have hnd' : (keys ((m₁ ++ [(e.1, (⟨hashOf e.1, now⟩ : RegionHash))]) ++ m₂)).Nodup := by
      have hkeq : keys ((m₁ ++ [(e.1, (⟨hashOf e.1, now⟩ : RegionHash))]) ++ m₂)
          = keys (m₁ ++ e :: m₂) := by
        simp [keys_append, keys_cons, keys_nil]
      rw [hkeq]
      exact hnd
    rw [keys_cons, List.foldl_cons, processRegion_eq_some (lookup_append_mid he1),
      update_append_mid he1, List.append_cons m₁ _ m₂, ih _ _ hnd']
    simp

theorem keys_map_refresh {m : RegionMap} {hashOf : Region → Nat} {now : Nat} :
    keys (m.map (fun e => (e.1, (⟨hashOf e.1, now⟩ : RegionHash)))) = keys m := by
  simp [keys, List.map_map, Function.comp]

theorem checkerIteration_search_once (cfg : CheckerConfig) (hashOf : Region → Nat)
    (now : Nat) (enum : List Region) (m : RegionMap)
    (hso : cfg.search_once = true) (hm : m ≠ []) (hnd : (keys m).Nodup) :
    (checkerIteration cfg hashOf now enum m).1 =
      m.map (fun e => (e.1, ⟨hashOf e.1, now⟩)) := by
  have hemp : m.isEmpty = false := List.isEmpty_eq_false.mpr hm
  have hcand : candidateRegions cfg enum m = keys m := by
    rw [candidateRegions, usesEnumerator, hso, hemp]
    simp
  have hfold := fold_refresh hashOf now m [] [] (by simpa using hnd)
  rw [List.nil_append, List.nil_append] at hfold
  simp only [checkerIteration]
  rw [hcand, hfold, pruneRegions, List.filter_eq_self.mpr]
  intro a ha
  rcases List.mem_map.mp ha with ⟨e, _, rfl⟩
  simp

theorem checkerRun_search_once (cfg : CheckerConfig) (hso : cfg.search_once = true) :
    ∀ (its : List IterInput) (m : RegionMap), m ≠ [] → (keys m).Nodup →
      keys (checkerRun cfg m its).1 = keys m ∧
      (checkerRun cfg m its).2 = List.replicate its.length false := by
  intro its
  induction its with
  | nil =>
    intro m _ _
    exact ⟨rfl, rfl⟩
  | cons it its ih =>
    intro m hm hnd
    have hstep := checkerIteration_search_once cfg it.hashOf it.now it.enumerated m hso hm hnd
    have hm' : (checkerIteration cfg it.hashOf it.now it.enumerated m).1 ≠ [] := by
      rw [hstep]
      exact fun hh => hm (List.map_eq_nil_iff.mp hh)
    have hnd' : (keys (checkerIteration cfg it.hashOf it.now it.enumerated m).1).Nodup := by
      rw [hstep, keys_map_refresh]
      exact hnd
    have hemp : m.isEmpty = false := List.isEmpty_eq_false.mpr hm
    rcases ih (checkerIteration cfg it.hashOf it.now it.enumerated m).1 hm' hnd' with ⟨h1, h2⟩
    constructor
    · simp only [checkerRun]
      rw [h1, hstep, keys_map_refresh]
    · simp only [checkerRun]
      rw [h2, List.length_cons, List.replicate_succ, usesEnumerator, hso, hemp]
      simp

/-! ### Lemmas about the POSIX enumerator -/

namespace Linux

theorem selectMapsLine_mono (l : String) :
    selectMapsLine false l = selectMapsLine true l ∨ selectMapsLine false l = .skip := by
  unfold selectMapsLine
  cases hsp : split_whitespace l with
  | nil => left; rfl
  | cons s0 t =>
    cases t with
    | nil => left; rfl
    | cons s1 rest =>
      by_cases hx : str_starts_with s1 "r-x" = true
      · left
        simp [hx]
      · right
        simp only [Bool.not_eq_true] at hx
        simp [hx]

theorem processMapsLine_mono (f : Option String) (l : String) :
    processMapsLine false f l = processMapsLine true f l ∨
    processMapsLine false f l = .skip := by
  unfold processMapsLine
  rcases selectMapsLine_mono l with h | h
  · rw [h]
    left
    rfl
  · rw [h]
    right
    rfl

theorem processMapsLine_filter (iwc : Bool) (p : String) (l : String) :
    processMapsLine iwc (some p) l = processMapsLine iwc none l ∨
    processMapsLine iwc (some p) l = .skip := by
  unfold processMapsLine
  cases hsel : selectMapsLine iwc l with
  | panicked => left; rfl
  | err e => left; rfl
  | skip => left; rfl
  | reg r =>
    by_cases hs : r.source = p
    · left
      simp [hs]
    · right
      simp [hs]

theorem processMapsLine_filtered_source {iwc : Bool} {p : String} {l : String} {r : Region}
    (h : processMapsLine iwc (some p) l = .reg r) : r.source = p := by
  unfold processMapsLine at h
  cases hsel : selectMapsLine iwc l with
  | panicked => rw [hsel] at h; exact absurd h (by simp)
  | err e => rw [hsel] at h; exact absurd h (by simp)
  | skip => rw [hsel] at h; exact absurd h (by simp)
  | reg r' =>
    rw [hsel] at h
    dsimp only at h
    split at h
    · exact absurd h (by simp)
    · rename_i hcond
      injection h with h'
      rw [← h']
      exact not_not.mp hcond

theorem runLines_mono (step₁ step₂ : String → LineStep)
    (hstep : ∀ l, step₁ l = step₂ l ∨ step₁ l = .skip) :
    ∀ (ls : List String) (rs : List Region), runLines step₂ ls = .ok rs →
      ∃ rs', runLines step₁ ls = .ok rs' ∧ rs'.Sublist rs := by
  intro ls
  induction ls with
  | nil =>
    intro rs h
    rw [runLines] at h
    injection h with h'
    exact ⟨[], by rw [runLines], by rw [← h']⟩
  | cons l ls ih =>
    intro rs h
    rw [runLines] at h
    cases h2 : step₂ l with
    | panicked => rw [h2] at h; exact absurd h (by simp)
    | err e => rw [h2] at h; exact absurd h (by simp)
    | skip =>
      rw [h2] at h
      rcases ih rs h with ⟨rs', h1', hsub⟩
      rcases hstep l with hs | hs
      · exact ⟨rs', by rw [runLines, hs, h2]; exact h1', hsub⟩
      · exact ⟨rs', by rw [runLines, hs]; exact h1', hsub⟩
    | reg r =>
      rw [h2] at h
      cases h3 : runLines step₂ ls with
      | panicked => rw [h3] at h; exact absurd h (by simp)
      | err e => rw [h3] at h; exact absurd h (by simp)
      | ok rs₂ =>
        rw [h3] at h
        injection h with h'
        rcases ih rs₂ h3 with ⟨rs', h1', hsub⟩
        rcases hstep l with hs | hs
        · refine ⟨r :: rs', ?_, ?_⟩
          · rw [runLines, hs, h2, h1']
          · rw [← h']
            exact hsub.cons₂ r
        · refine ⟨rs', ?_, ?_⟩
          · rw [runLines, hs]
            exact h1'
          · rw [← h']
            exact hsub.cons r
    
theorem runLines_sources {p : String} (step : String → LineStep)
    (hstep : ∀ l r, step l = .reg r → r.source = p) :
    ∀ (ls : List String) (rs : List Region), runLines step ls = .ok rs →
      ∀ r ∈ rs, r.source = p := by
  intro ls
  induction ls with
  | nil =>
    intro rs h r hr
    rw [runLines] at h
    injection h with h'
    rw [← h'] at hr
    exact absurd hr (List.not_mem_nil r)
  | cons l ls ih =>
    intro rs h
    rw [runLines] at h
    cases hsl : step l with
    | panicked => rw [hsl] at h; exact absurd h (by simp)
    | err e => rw [hsl] at h; exact absurd h (by simp)
    | skip =>
      rw [hsl] at h
      exact ih rs h
    | reg r0 =>
      rw [hsl] at h
      cases h3 : runLines step ls with
      | panicked => rw [h3] at h; exact absurd h (by simp)
      | err e => rw [h3] at h; exact absurd h (by simp)
      | ok rs₂ =>
        rw [h3] at h
        injection h with h'
        intro r hr
        rw [← h'] at hr
        rcases List.mem_cons.mp hr with h4 | h4
        · rw [h4]
          exact hstep l r0 hsl
        · exact ih rs₂ h3 r h4

end Linux

/-! ### Lemmas about the Windows module walk -/

namespace Windows

theorem regionsOfVisited_nil {iwc : Bool} {path : String} {me : Nat} :
    regionsOfVisited iwc path me [] = [] := rfl

theorem regionsOfVisited_cons {iwc : Bool} {path : String} {me : Nat}
    {v : Nat × MEMORY_BASIC_INFORMATION} {vs : List (Nat × MEMORY_BASIC_INFORMATION)} :
    regionsOfVisited iwc path me (v :: vs) =
      (if winEmit v.2.Protect iwc then
        [⟨v.1, min (v.2.BaseAddress + v.2.RegionSize) me, path⟩] else [])
        ++ regionsOfVisited iwc path me vs := by
  rw [regionsOfVisited, regionsOfVisited, List.filter_cons]
  by_cases hwe : winEmit v.2.Protect iwc = true
  · rw [if_pos (by simp [hwe]), if_pos hwe, List.map_cons]
    rfl
  · rw [if_neg (by simp [hwe]), if_neg hwe]
    rfl

theorem moduleWalkVisited_regions (iwc : Bool)
    (query : Nat → Except Error MEMORY_BASIC_INFORMATION) (path : String) (me : Nat) :
    ∀ (fuel pos : Nat) (vs : List (Nat × MEMORY_BASIC_INFORMATION)),
      moduleWalkVisited query me fuel pos = some vs →
      moduleWalk iwc query path me fuel pos = some (.ok (regionsOfVisited iwc path me vs)) := by
  intro fuel
  induction fuel with
  | zero =>
    intro pos vs h
    rw [moduleWalkVisited] at h
    exact absurd h (by simp)
  | succ fuel ih =>
    intro pos vs h
    rw [moduleWalkVisited] at h
    rw [moduleWalk]
    cases hq : query pos with
    | error e =>
      rw [hq] at h
      exact absurd h (by simp)
    | ok info =>
      rw [hq] at h
      dsimp only at h ⊢
      by_cases hend : me ≤ min (info.BaseAddress + info.RegionSize) me
      · rw [if_pos hend] at h
        injection h with h'
        rw [if_pos hend, ← h', regionsOfVisited_cons, regionsOfVisited_nil, List.append_nil]
      · rw [if_neg hend] at h
        cases hv : moduleWalkVisited query me fuel (min (info.BaseAddress + info.RegionSize) me) with
        | none =>
          rw [hv] at h
          exact absurd h (by simp)
        | some vs' =>
          rw [hv] at h
          dsimp only at h
          injection h with h'
          rw [if_neg hend, ih _ vs' hv, ← h', regionsOfVisited_cons]

theorem moduleWalk_ok_visited (iwc : Bool)
    (query : Nat → Except Error MEMORY_BASIC_INFORMATION) (path : String) (me : Nat) :
    ∀ (fuel pos : Nat) (rs : List Region),
      moduleWalk iwc query path me fuel pos = some (.ok rs) →
      ∃ vs, moduleWalkVisited query me fuel pos = some vs := by
  intro fuel
  induction fuel with
  | zero =>
    intro pos rs h
    rw [moduleWalk] at h
    exact absurd h (by simp)
  | succ fuel ih =>
    intro pos rs h
    rw [moduleWalk] at h
    rw [moduleWalkVisited]
    cases hq : query pos with
    | error e =>
      rw [hq] at h
      exact absurd h (by simp)
    | ok info =>
      rw [hq] at h
      dsimp only at h ⊢
      by_cases hend : me ≤ min (info.BaseAddress + info.RegionSize) me
      · rw [if_pos hend]
        exact ⟨_, rfl⟩
      · rw [if_neg hend] at h ⊢
        cases hw : moduleWalk iwc query path me fuel (min (info.BaseAddress + info.RegionSize) me) with
        | none =>
          rw [hw] at h
          exact absurd h (by simp)
        | some out =>
          cases out with
          | error e =>
            rw [hw] at h
            exact absurd h (by simp)
          | ok rest =>
            rcases ih _ rest hw with ⟨vs', hv'⟩
            rw [hv']
            exact ⟨_, rfl⟩

end Windows

theorem lor_two_pow_eq_iff (p k : Nat) : (p ||| 2 ^ k) = 2 ^ k ↔ p = 0 ∨ p = 2 ^ k := by
  constructor
  · intro h
    have hb : ∀ i, i ≠ k → p.testBit i = false := by
      intro i hik
      have h1 : (p ||| 2 ^ k).testBit i = (2 ^ k).testBit i := by rw [h]
      rw [Nat.testBit_lor, Nat.testBit_two_pow_of_ne (fun hh => hik hh.symm)] at h1
      simpa using h1
    cases hk : p.testBit k with
    | true =>
      right
      apply Nat.eq_of_testBit_eq
      intro i
      by_cases hik : i = k
      · rw [hik, hk, Nat.testBit_two_pow_self]
      · rw [hb i hik, Nat.testBit_two_pow_of_ne (fun hh => hik hh.symm)]
    | false =>
      left
      apply Nat.eq_of_testBit_eq
      intro i
      rw [Nat.zero_testBit]
      by_cases hik : i = k
      · rw [hik, hk]
      · exact hb i hik
  · rintro (rfl | rfl)
    · simp
    · simp

theorem winEmit_iff (p : Nat) (i : Bool) :
    Windows.winEmit p i = true ↔
      (p = 0 ∨ p = Windows.PAGE_EXECUTE_READ ∨ p = Windows.PAGE_EXECUTE_WRITECOPY ∨
        (i = true ∧ p = Windows.PAGE_EXECUTE_READWRITE)) := by
  have e32 : Windows.PAGE_EXECUTE_READ = 2 ^ 5 := by decide
  have e64 : Windows.PAGE_EXECUTE_READWRITE = 2 ^ 6 := by decide
  have e128 : Windows.PAGE_EXECUTE_WRITECOPY = 2 ^ 7 := by decide
  rw [Windows.winEmit]
  simp only [Bool.or_eq_true, Bool.and_eq_true, beq_iff_eq]
  rw [e32, e64, e128, lor_two_pow_eq_iff p 5, lor_two_pow_eq_iff p 6, lor_two_pow_eq_iff p 7]
  tauto

theorem winEmit_mono {p : Nat} (h : Windows.winEmit p false = true) :
    Windows.winEmit p true = true := by
  rw [winEmit_iff] at h ⊢
  tauto

namespace Linux

theorem processMapsLine_filter_cases (iwc : Bool) (p : String) (l : String) :
    processMapsLine iwc (some p) l = processMapsLine iwc none l ∨
    (∃ r, processMapsLine iwc none l = .reg r ∧ processMapsLine iwc (some p) l = .skip) := by
  unfold processMapsLine
  cases hsel : selectMapsLine iwc l with
  | panicked => left; rfl
  | err e => left; rfl
  | skip => left; rfl
  | reg r =>
    by_cases hs : r.source = p
    · left
      simp [hs]
    · right
      exact ⟨r, rfl, by simp [hs]⟩

theorem runLines_unfilter (step₁ step₂ : String → LineStep)
    (hstep : ∀ l, step₁ l = step₂ l ∨ (∃ r, step₂ l = .reg r ∧ step₁ l = .skip)) :
    ∀ (ls : List String) (rs₁ : List Region), runLines step₁ ls = .ok rs₁ →
      ∃ rs₂, runLines step₂ ls = .ok rs₂ ∧ rs₁.Sublist rs₂ := by
  intro ls
  induction ls with
  | nil =>
    intro rs₁ h
    rw [runLines] at h
    injection h with h'
    exact ⟨[], by rw [runLines], by rw [← h']⟩
  | cons l ls ih =>
    intro rs₁ h
    rw [runLines] at h
    rcases hstep l with hs | ⟨r, hs2, hs1⟩
    · cases h1 : step₁ l with
      | panicked => rw [h1] at h; exact absurd h (by simp)
      | err e => rw [h1] at h; exact absurd h (by simp)
      | skip =>
        rw [h1] at h
        rcases ih rs₁ h with ⟨rs₂, h2, hsub⟩
        exact ⟨rs₂, by rw [runLines, ← hs, h1]; exact h2, hsub⟩
      | reg r0 =>
        rw [h1] at h
        cases h3 : runLines step₁ ls with
        | panicked => rw [h3] at h; exact absurd h (by simp)
        | err e => rw [h3] at h; exact absurd h (by simp)
        | ok rs₁' =>
          rw [h3] at h
          injection h with h'
          rcases ih rs₁' h3 with ⟨rs₂, h2, hsub⟩
          refine ⟨r0 :: rs₂, ?_, ?_⟩
          · rw [runLines, ← hs, h1, h2]
          · rw [← h']
            exact hsub.cons₂ r0
    · rw [hs1] at h
      rcases ih rs₁ h with ⟨rs₂, h2, hsub⟩
      refine ⟨r :: rs₂, ?_, ?_⟩
      · rw [runLines, hs2, h2]
      · exact hsub.cons r

end Linux

/-! ### The claims -/

/-- C1 (code finding): at the end of a `run_checker` iteration whose work took
longer than `check_period`, the computation `config.check_period -
now.elapsed()` (src/src/lib.rs line 309) does not clamp to zero: Rust's
`Duration` subtraction panics with "overflow when subtracting durations".
Evaluated here with a 1 ns period and 2 ns of elapsed work: the modelled
subtraction hits its panic case. -/
theorem run_checker_sleep_sub_panics_on_overrun : sleepDurationOf 1 2 = none := rfl

/-- C2 (counterexample): walking a module whose single segment is reserved
(`Protect = 0`, as `VirtualQuery` reports for reserved pages) emits a Region,
although protection value 0 indicates none of execute-read,
execute-read-with-copy-on-write, or execute-read-write — the claimed
"only if" direction of the emission condition fails at protection 0. -/
theorem windows_emits_reserved_protection_zero :
    modW.get_executable_regions false queryZero 1 = some (.ok [⟨4096, 8192, "m"⟩]) ∧
    Windows.protectionIndicatedBySpec 0 false = false :=
  ⟨rfl, rfl⟩

/-- C2 (amended): for every Windows module walk that returns a region list, a
Region is emitted for a visited segment if and only if the segment's
protection value OR-ed with one of the accepted flags equals that flag —
equivalently, iff the protection is 0x20 (execute-read), 0x80
(execute-writecopy), 0x40 (execute-read-write, only when
`include_writable_code`), or additionally 0 (reserved/free pages, which the
walk also emits): the returned list is exactly the visited segment list
filtered by the source's emission condition `winEmit`. -/
theorem windows_region_emitted_iff_protection_passes
    (M : Windows.Module) (iwc : Bool)
    (query : Nat → Except Error Windows.MEMORY_BASIC_INFORMATION)
    (fuel : Nat) (rs : List Region)
    (hw : M.get_executable_regions iwc query fuel = some (.ok rs)) :
    (∃ vs, Windows.moduleWalkVisited query (M.base_addr + M.base_size) fuel M.base_addr
        = some vs ∧
      rs = Windows.regionsOfVisited iwc M.exe_path (M.base_addr + M.base_size) vs) ∧
    (∀ p j, Windows.winEmit p j = true ↔
      (p = 0 ∨ p = Windows.PAGE_EXECUTE_READ ∨ p = Windows.PAGE_EXECUTE_WRITECOPY ∨
        (j = true ∧ p = Windows.PAGE_EXECUTE_READWRITE))) := by
  constructor
  · rw [Windows.Module.get_executable_regions] at hw
    rcases Windows.moduleWalk_ok_visited iwc query M.exe_path (M.base_addr + M.base_size)
      fuel M.base_addr rs hw with ⟨vs, hv⟩
    refine ⟨vs, hv, ?_⟩
    have hwr := Windows.moduleWalkVisited_regions iwc query M.exe_path
      (M.base_addr + M.base_size) fuel M.base_addr vs hv
    rw [hwr] at hw
    injection hw with h1
    injection h1 with h2
    exact h2.symm
  · exact winEmit_iff

/-- C2 witness: the amended theorem applied to the reserved-segment module
walk of the counterexample. -/
theorem windows_region_emitted_iff_protection_passes_witness :
    (∃ vs, Windows.moduleWalkVisited queryZero (modW.base_addr + modW.base_size) 1 modW.base_addr
        = some vs ∧
      [(⟨4096, 8192, "m"⟩ : Region)] =
        Windows.regionsOfVisited false modW.exe_path (modW.base_addr + modW.base_size) vs) ∧
    (∀ p j, Windows.winEmit p j = true ↔
      (p = 0 ∨ p = Windows.PAGE_EXECUTE_READ ∨ p = Windows.PAGE_EXECUTE_WRITECOPY ∨
        (j = true ∧ p = Windows.PAGE_EXECUTE_READWRITE))) :=
  windows_region_emitted_iff_protection_passes modW false queryZero 1 [⟨4096, 8192, "m"⟩] rfl

/-- C3 (code finding): on a maps line with fewer than two whitespace-separated
fields (here a single empty line) the POSIX enumerator panics — the unchecked
slice index `segments[1]` (src/src/linux/mod.rs line 32) is out of bounds —
instead of failing with a taxonomy error as the claim requires for every
content of the mapping pseudo-file. -/
theorem linux_enumeration_panics_on_short_line :
    Linux.get_executable_regions false false none [""] = .panicked := rfl

/-- C4 (counterexample): with `search_once = true` and a first enumeration
that returns no regions, the tracked map stays empty, so the loop calls the
enumerator again on the second iteration (`true` flag in both positions):
the enumerator is not called "on the first iteration only". -/
theorem search_once_reenumerates_after_empty_first_scan :
    (checkerRun cfgOnce [] [⟨hash7, 0, []⟩, ⟨hash7, 1, []⟩]).2 = [true, true] := by
  decide

/-- C4 (amended): when `search_once` is true, an iteration calls the region
enumerator if and only if the tracked-state map is empty at the iteration's
start (the decision `usesEnumerator` computes exactly `m.isEmpty`); once the
map is non-empty, every remaining iteration reuses the tracked keys and
never calls the enumerator again. -/
theorem search_once_enumerates_iff_tracked_map_empty
    (cfg : CheckerConfig) (m : RegionMap) (its : List IterInput)
    (hso : cfg.search_once = true) (hm : m ≠ []) (hnd : (keys m).Nodup) :
    (∀ m' : RegionMap, usesEnumerator cfg m' = m'.isEmpty) ∧
    (checkerRun cfg m its).2 = List.replicate its.length false := by
  constructor
  · intro m'
    rw [usesEnumerator, hso]
    simp
  · exact (checkerRun_search_once cfg hso its m hm hnd).2

/-- C4 witness: one iteration on a non-empty tracked map, with `search_once`
set, never calls the enumerator. -/
theorem search_once_enumerates_iff_tracked_map_empty_witness :
    (∀ m' : RegionMap, usesEnumerator cfgOnce m' = m'.isEmpty) ∧
    (checkerRun cfgOnce mA [⟨hash7, 5, []⟩]).2 = List.replicate 1 false :=
  search_once_enumerates_iff_tracked_map_empty cfgOnce mA [⟨hash7, 5, []⟩] rfl
    (by decide) (by decide)

/-- C5: a successful POSIX enumeration with `skip_libs = true`, when the
running executable's path resolved to `p`, returns only regions whose source
equals `p`, and at most as many regions as the same enumeration with
`skip_libs = false`. -/
theorem skip_libs_sources_match_exe_and_count_le
    (iwc : Bool) (p : String) (lines : List String) (rs : List Region)
    (h : Linux.get_executable_regions true iwc (some p) lines = .ok rs) :
    (∀ r ∈ rs, r.source = p) ∧
    (∃ rs', Linux.get_executable_regions false iwc (some p) lines = .ok rs' ∧
      rs.length ≤ rs'.length) := by
  have h' : Linux.runLines (Linux.processMapsLine iwc (some p)) lines = .ok rs := by
    simpa [Linux.get_executable_regions] using h
  constructor
  · exact Linux.runLines_sources (Linux.processMapsLine iwc (some p))
      (fun l r hr => Linux.processMapsLine_filtered_source hr) lines rs h'
  · rcases Linux.runLines_unfilter (Linux.processMapsLine iwc (some p))
      (Linux.processMapsLine iwc none)
      (Linux.processMapsLine_filter_cases iwc p) lines rs h' with ⟨rs', h2, hsub⟩
    refine ⟨rs', ?_, hsub.length_le⟩
    simpa [Linux.get_executable_regions] using h2

/-- C5 witness: on a maps content with one executable-binary line and one
library line, the `skip_libs` enumeration returns exactly the binary's
region and no more regions than the unfiltered enumeration. -/
theorem skip_libs_sources_match_exe_and_count_le_witness :
    (∀ r ∈ [(⟨0, 1, "/bin/app"⟩ : Region)], r.source = "/bin/app") ∧
    (∃ rs', Linux.get_executable_regions false false (some "/bin/app") linesAB = .ok rs' ∧
      [(⟨0, 1, "/bin/app"⟩ : Region)].length ≤ rs'.length) :=
  skip_libs_sources_match_exe_and_count_le false "/bin/app" linesAB
    [⟨0, 1, "/bin/app"⟩] (by decide)

/-- C6: provided every tracked entry's timestamp predates this iteration's
`now` (the monotone clock), after the prune step every remaining entry has
`computed_at = now`; every tracked region that is not among this iteration's
candidates is gone from the map; and every callback invocation of the
iteration is about a candidate region — so a pruned region triggers no
callback. -/
theorem prune_refreshes_and_drops_silently
    (cfg : CheckerConfig) (hashOf : Region → Nat) (now : Nat)
    (enum : List Region) (m : RegionMap)
    (hfresh : ∀ e ∈ m, e.2.computed_at ≠ now) :
    (∀ e ∈ (checkerIteration cfg hashOf now enum m).1, e.2.computed_at = now) ∧
    (∀ r ∈ keys m, r ∉ candidateRegions cfg enum m →
      r ∉ keys (checkerIteration cfg hashOf now enum m).1) ∧
    (∀ ev ∈ (checkerIteration cfg hashOf now enum m).2,
      ev.region ∈ candidateRegions cfg enum m) := by
  refine ⟨?_, ?_, ?_⟩
  · intro e he
    simp only [checkerIteration, pruneRegions] at he
    rcases List.mem_filter.mp he with ⟨_, hbeq⟩
    simpa using hbeq
  · intro r hrk hrc hmem
    simp only [checkerIteration, pruneRegions] at hmem
    rw [keys] at hmem
    rcases List.mem_map.mp hmem with ⟨e, he, rfl⟩
    rcases List.mem_filter.mp he with ⟨hef, hbeq⟩
    have hstale := fold_stale_mem hashOf now (candidateRegions cfg enum m) m [] e hef hrc
    exact hfresh e hstale (by simpa using hbeq)
  · intro ev hev
    simp only [checkerIteration] at hev
    rcases fold_event_regions hashOf now (candidateRegions cfg enum m) m [] ev hev with h1 | h1
    · exact absurd h1 (List.not_mem_nil ev)
    · exact h1

/-- C6 witness: a region tracked at time 0 and not re-observed at time 5 is
removed by the prune step of that iteration. -/
theorem prune_refreshes_and_drops_silently_witness :
    rA ∉ keys (checkerIteration cfgPlain hash7 5 [] mA).1 :=
  (prune_refreshes_and_drops_silently cfgPlain hash7 5 [] mA (by decide)).2.1 rA
    (by decide) (by decide)

/-- C7: for a candidate region `r` already tracked with `entry`, the
iteration's callback invocations about `r` are exactly one event — carrying
`r`, the old fingerprint, the new fingerprint and the old `observed_at` (the
values read before the entry is overwritten) — when the fingerprints differ,
and none otherwise; in both cases the stored entry ends up holding the
current fingerprint and the current timestamp. -/
theorem changed_region_fires_callback_once_then_updates
    (cfg : CheckerConfig) (hashOf : Region → Nat) (now : Nat)
    (enum : List Region) (m : RegionMap) (r : Region) (entry : RegionHash)
    (hnd : (candidateRegions cfg enum m).Nodup)
    (hr : r ∈ candidateRegions cfg enum m)
    (hlk : lookupRegion m r = some entry) :
    eventsFor r (checkerIteration cfg hashOf now enum m).2 =
      (if entry.hash ≠ hashOf r then
        [⟨r, entry.hash, hashOf r, entry.computed_at⟩] else []) ∧
    lookupRegion (checkerIteration cfg hashOf now enum m).1 r = some ⟨hashOf r, now⟩ := by
  constructor
  · simp only [checkerIteration]
    have hev := fold_events_present hashOf now r entry (candidateRegions cfg enum m)
      hnd hr m [] hlk
    simpa using hev
  · simp only [checkerIteration]
    exact lookup_prune (fold_lookup_processed hashOf now r (candidateRegions cfg enum m)
      hnd hr m []) rfl

/-- C7 witness: a tracked region whose hash changes from 1 to 7 at time 5
yields exactly one event with the old hash, the new hash and the old
timestamp 0, and its entry is updated to the new hash and time. -/
theorem changed_region_fires_callback_once_then_updates_witness :
    eventsFor rA (checkerIteration cfgPlain hash7 5 [rA] mA).2 = [⟨rA, 1, 7, 0⟩] ∧
    lookupRegion (checkerIteration cfgPlain hash7 5 [rA] mA).1 rA = some ⟨7, 5⟩ := by
  have h := changed_region_fires_callback_once_then_updates cfgPlain hash7 5 [rA] mA rA
    ⟨1, 0⟩ (by decide) (by decide) (by decide)
  refine ⟨?_, h.2⟩
  rw [h.1, if_pos (by decide)]
  rfl

/-- C8: a candidate region absent from the tracked map produces no callback
invocation about it, and is inserted with the current fingerprint and
timestamp. -/
theorem new_region_inserted_without_callback
    (cfg : CheckerConfig) (hashOf : Region → Nat) (now : Nat)
    (enum : List Region) (m : RegionMap) (r : Region)
    (hnd : (candidateRegions cfg enum m).Nodup)
    (hr : r ∈ candidateRegions cfg enum m)
    (hlk : lookupRegion m r = none) :
    eventsFor r (checkerIteration cfg hashOf now enum m).2 = [] ∧
    lookupRegion (checkerIteration cfg hashOf now enum m).1 r = some ⟨hashOf r, now⟩ := by
  constructor
  · simp only [checkerIteration]
    have hev := fold_events_absent hashOf now r (candidateRegions cfg enum m) hnd hr m [] hlk
    simpa using hev
  · simp only [checkerIteration]
    exact lookup_prune (fold_lookup_processed hashOf now r (candidateRegions cfg enum m)
      hnd hr m []) rfl

/-- C8 witness: a first observation of `rA` at time 5 emits nothing and
stores its fingerprint with that timestamp. -/
theorem new_region_inserted_without_callback_witness :
    eventsFor rA (checkerIteration cfgPlain hash7 5 [rA] []).2 = [] ∧
    lookupRegion (checkerIteration cfgPlain hash7 5 [rA] []).1 rA = some ⟨7, 5⟩ :=
  new_region_inserted_without_callback cfgPlain hash7 5 [rA] [] rA
    (by decide) (by decide) rfl

/-- C9: for a fixed `skip_libs` setting (POSIX) and a fixed module and query
(Windows), an enumeration with `include_writable_code = true` that returns a
region list dominates the one with it false: the latter also returns a list,
of length less than or equal — the selection predicate is monotone in the
flag on both platforms. -/
theorem include_writable_code_monotone_counts
    (skip_libs : Bool) (exe : Option String) (lines : List String) (rsT : List Region)
    (M : Windows.Module) (query : Nat → Except Error Windows.MEMORY_BASIC_INFORMATION)
    (fuel : Nat) (wsT : List Region)
    (h1 : Linux.get_executable_regions skip_libs true exe lines = .ok rsT)
    (h2 : M.get_executable_regions true query fuel = some (.ok wsT)) :
    (∃ rsF, Linux.get_executable_regions skip_libs false exe lines = .ok rsF ∧
      rsF.length ≤ rsT.length) ∧
    (∃ wsF, M.get_executable_regions false query fuel = some (.ok wsF) ∧
      wsF.length ≤ wsT.length) := by
  constructor
  · have h1' : Linux.runLines
        (Linux.processMapsLine true (if skip_libs then exe else none)) lines = .ok rsT := by
      simpa [Linux.get_executable_regions] using h1
    rcases Linux.runLines_mono
      (Linux.processMapsLine false (if skip_libs then exe else none))
      (Linux.processMapsLine true (if skip_libs then exe else none))
      (fun l => Linux.processMapsLine_mono _ l) lines rsT h1' with ⟨rsF, hF, hsub⟩
    exact ⟨rsF, by simpa [Linux.get_executable_regions] using hF, hsub.length_le⟩
  · rw [Windows.Module.get_executable_regions] at h2 ⊢
    rcases Windows.moduleWalk_ok_visited true query M.exe_path (M.base_addr + M.base_size)
      fuel M.base_addr wsT h2 with ⟨vs, hv⟩
    have hT := Windows.moduleWalkVisited_regions true query M.exe_path
      (M.base_addr + M.base_size) fuel M.base_addr vs hv
    have hF := Windows.moduleWalkVisited_regions false query M.exe_path
      (M.base_addr + M.base_size) fuel M.base_addr vs hv
    rw [hT] at h2
    injection h2 with h2'
    injection h2' with h2''
    refine ⟨Windows.regionsOfVisited false M.exe_path (M.base_addr + M.base_size) vs, hF, ?_⟩
    rw [← h2'']
    unfold Windows.regionsOfVisited
    rw [List.length_map, List.length_map]
    exact (List.monotone_filter_right vs (fun a ha => winEmit_mono ha)).length_le

/-- C9 witness: a writable-executable-only mapping on both platforms — the
permissive runs return one region each, the strict runs still succeed with
at most one. -/
theorem include_writable_code_monotone_counts_witness :
    (∃ rsF, Linux.get_executable_regions false false (some "/bin/app") linesRwx = .ok rsF ∧
      rsF.length ≤ [(⟨0, 1, "/bin/app"⟩ : Region)].length) ∧
    (∃ wsF, modW.get_executable_regions false queryRW 1 = some (.ok wsF) ∧
      wsF.length ≤ [(⟨4096, 8192, "m"⟩ : Region)].length) :=
  include_writable_code_monotone_counts false (some "/bin/app") linesRwx
    [⟨0, 1, "/bin/app"⟩] modW queryRW 1 [⟨4096, 8192, "m"⟩] (by decide) rfl

/-- C10: with `search_once` set and a non-empty tracked map with distinct
keys, one iteration maps every entry to the same key with the current
fingerprint and timestamp — so the candidate set is exactly the key set,
every entry is refreshed, the prune removes nothing and no key is inserted —
and over any number of further iterations the key set of the tracked map is
invariant. -/
theorem search_once_key_set_invariant
    (cfg : CheckerConfig) (hashOf : Region → Nat) (now : Nat) (enum : List Region)
    (m : RegionMap) (its : List IterInput)
    (hso : cfg.search_once = true) (hm : m ≠ []) (hnd : (keys m).Nodup) :
    (checkerIteration cfg hashOf now enum m).1 =
      m.map (fun e => (e.1, ⟨hashOf e.1, now⟩)) ∧
    keys (checkerRun cfg m its).1 = keys m :=
  ⟨checkerIteration_search_once cfg hashOf now enum m hso hm hnd,
   (checkerRun_search_once cfg hso its m hm hnd).1⟩

/-- C10 witness: one `search_once` iteration over the one-entry map refreshes
that entry in place; a further run keeps the key set. -/
theorem search_once_key_set_invariant_witness :
    (checkerIteration cfgOnce hash7 5 [] mA).1 =
      mA.map (fun e => (e.1, ⟨hash7 e.1, 5⟩)) ∧
    keys (checkerRun cfgOnce mA [⟨hash7, 5, []⟩]).1 = keys mA :=
  search_once_key_set_invariant cfgOnce hash7 5 [] mA [⟨hash7, 5, []⟩] rfl
    (by decide) (by decide)
